import Mathlib

/-!
Verification of `src/free-memory.c` from the anticlust repository.

The file contains four teardown routines:
- `free_cluster_list` walks `k` singly-linked cluster chains and frees
  every node;
- `free_category_indices` and `free_distances` free each slot of an array
  of independently allocated buffers (`free(NULL)` is a no-op);
- `free_points` frees the `values` buffer of the first `i` elements of a
  point array.

We embed them shallowly.  Pointers are `Option Nat` (with `none` the null
pointer), the node heap is a map `Nat → Option Node` in which freeing
removes the address; reading a null pointer or a freed/unallocated address
is an explicit error branch, so a run that returns `.ok` performed no null
dereference and no use after free.  Each function additionally returns the
trace of addresses it released, in release order, so "frees exactly these
allocations, each once" is a statement about the trace.
-/

set_option autoImplicit false

namespace FreeMemory

/-- The C `struct node`: a cluster-list node.  `free-memory.c` only reads the
`next` field; the payload (a point reference, per `declarations.h` usage)
is carried but never inspected by the teardown code. -/
structure Node where
  payload : Nat
  next : Option Nat

/-- The node heap: which addresses currently hold a live `struct node`.
`none` means the address is unallocated or already freed. -/
abbrev Heap := Nat → Option Node

/-- Calling `free(a)` on the node heap: the address stops being live. -/
def hFree (h : Heap) (a : Nat) : Heap :=
  fun x => if x = a then none else h x

/-- Freeing a list of addresses in order. -/
def removeList (h : Heap) (l : List Nat) : Heap :=
  l.foldl hFree h

/-- Memory errors the embedding can observe: dereferencing a null pointer
(`ptr->next` with `ptr == NULL`), reading a freed or unallocated address,
or running out of loop fuel. -/
inductive MemErr where
  | nullDeref
  | danglingRead
  | outOfFuel

/-- The inner `while` loop of `free_cluster_list` on one chain, entered
with the non-null pointer `ptr = a`:

    while (ptr->next != NULL) { prev = ptr; ptr = ptr->next; free(prev); }
    free(ptr);

Each guard evaluation reads `ptr->next` from the current heap, so reading
a node that was already freed is the `danglingRead` error.  Returns the
heap after the chain is freed, the release trace, and the number of
`while`-loop iterations executed. -/
def freeChainStep (h : Heap) (a : Nat) : Nat → Except MemErr (Heap × List Nat × Nat)
  | 0 => .error .outOfFuel
  | fuel + 1 =>
    match h a with
    | none => .error .danglingRead
    | some nd =>
      match nd.next with
      | none => .ok (hFree h a, [a], 0)
      | some b =>
        match freeChainStep (hFree h a) b fuel with
        | .error e => .error e
        | .ok (h2, l, iters) => .ok (h2, a :: l, iters + 1)

/-- The function `free_cluster_list(k, PTR_CLUSTER_HEADS)`: for each cluster head in
order, run the chain-freeing loop.  The head is loaded and then the loop
guard evaluates `ptr->next`; a null head therefore dereferences null.
Returns the final heap and the concatenated release trace. -/
def free_cluster_list (heads : List (Option Nat)) (h : Heap) (fuel : Nat) :
    Except MemErr (Heap × List Nat) :=
  match heads with
  | [] => .ok (h, [])
  | none :: _ => .error .nullDeref
  | some a :: rest =>
    match freeChainStep h a fuel with
    | .error e => .error e
    | .ok (h1, l1, _) =>
      match free_cluster_list rest h1 fuel with
      | .error e => .error e
      | .ok (h2, l2) => .ok (h2, l1 ++ l2)

/-- The trace of the C library `free` applied to a possibly-null pointer:
`free(NULL)` releases nothing required by the C standard; `free(p)` for
non-null `p` releases exactly that allocation. -/
def freeEffect : Option Nat → List Nat
  | none => []
  | some a => [a]

/-- The function `free_category_indices(c, CATEGORY_HEADS)`: free every slot of the
array in index order.  Slots may be null; `free` tolerates that. -/
def free_category_indices : List (Option Nat) → List Nat
  | [] => []
  | s :: rest => freeEffect s ++ free_category_indices rest

/-- The function `free_distances(n, DISTANCES)`: free every row pointer of the
distance matrix in index order; same shape as `free_category_indices`. -/
def free_distances : List (Option Nat) → List Nat
  | [] => []
  | s :: rest => freeEffect s ++ free_distances rest

/-- The C `struct element`: a data point; `free-memory.c` only touches its
`values` buffer pointer (possibly null). -/
structure Element where
  values : Option Nat
deriving DecidableEq

/-- The function `free_points(n, POINTS, i)`: free `POINTS[j].values` for `j = 0 .. i-1`.
The length parameter `n` is received but never used by the body, exactly
as in the source.  Reading `POINTS[j]` past the end of the actual array is
the out-of-bounds error branch (`none`). -/
def free_points (n : Nat) (POINTS : List Element) (i : Nat) : Option (List Nat) :=
  match i, POINTS with
  | 0, _ => some []
  | _ + 1, [] => none
  | i + 1, p :: rest =>
    match free_points n rest i with
    | none => none
    | some l => some (freeEffect p.values ++ l)

/-- Predicate `chainFrom h p l`: the pointer `p` heads a null-terminated chain in
heap `h` whose nodes are exactly the addresses `l`, in order. -/
def chainFrom (h : Heap) : Option Nat → List Nat → Bool
  | p, [] => p == none
  | p, a :: l =>
    p == some a &&
      match h a with
      | none => false
      | some nd => chainFrom h nd.next l

/-- Well-formed cluster-list collection: head `i` heads the acyclic chain
`chains[i]` in heap `h`. -/
def chainsWF (h : Heap) : List Nat → List (List Nat) → Bool
  | [], [] => true
  | a :: hs, l :: ls => chainFrom h (some a) l && decide l.Nodup && chainsWF h hs ls
  | _, _ => false

/-- Boolean disjointness of two address lists. -/
def disjointb (l1 l2 : List Nat) : Bool :=
  l1.all (fun x => decide (x ∉ l2))

/-- Pairwise disjointness of the chains: no node is shared between two
clusters. -/
def pairwiseDisjointb : List (List Nat) → Bool
  | [] => true
  | l :: ls => ls.all (disjointb l) && pairwiseDisjointb ls

/-- A concrete four-node heap used to exercise the theorems: three chains
`10`, `20 → 30`, `40` (the spec scenario `k = 3`, chain lengths `[1,2,1]`). -/
def exampleHeap : Heap := fun a =>
  if a = 10 then some ⟨0, none⟩
  else if a = 20 then some ⟨1, some 30⟩
  else if a = 30 then some ⟨2, none⟩
  else if a = 40 then some ⟨3, none⟩
  else none

/-! ### Heap lemmas -/

theorem hFree_apply_ne (h : Heap) (a x : Nat) (hx : x ≠ a) : hFree h a x = h x := by
  simp [hFree, hx]

theorem removeList_nil (h : Heap) : removeList h [] = h := rfl

theorem removeList_cons (h : Heap) (a : Nat) (l : List Nat) :
    removeList h (a :: l) = removeList (hFree h a) l := rfl

theorem removeList_append (h : Heap) (l1 l2 : List Nat) :
    removeList h (l1 ++ l2) = removeList (removeList h l1) l2 := by
  simp [removeList, List.foldl_append]

theorem removeList_apply_not_mem (h : Heap) (l : List Nat) (x : Nat) (hx : x ∉ l) :
    removeList h l x = h x := by
  induction l generalizing h with
  | nil => rfl
  | cons a t ih =>
    rw [removeList_cons, ih _ (fun hm => hx (List.mem_cons_of_mem a hm)),
      hFree_apply_ne h a x (fun he => hx (he ▸ List.mem_cons_self a t))]

/-! ### Chain lemmas -/

theorem chainFrom_congr (h h2 : Heap) (p : Option Nat) (l : List Nat)
    (hagree : ∀ x ∈ l, h2 x = h x) : chainFrom h2 p l = chainFrom h p l := by
  induction l generalizing p with
  | nil => rfl
  | cons a t ih =>
    simp only [chainFrom, hagree a (List.mem_cons_self a t)]
    cases h a with
    | none => rfl
    | some nd =>
      simp only [ih nd.next (fun x hx => hagree x (List.mem_cons_of_mem a hx))]

theorem chainFrom_ne_nil (h : Heap) (a : Nat) (l : List Nat)
    (hc : chainFrom h (some a) l = true) : l ≠ [] := by
  intro he
  subst he
  simp [chainFrom] at hc

/-- The single-chain loop frees exactly the chain's nodes, in order, using
one `while` iteration fewer than the number of nodes. -/
theorem freeChainStep_spec (l : List Nat) :
    ∀ (h : Heap) (a : Nat) (fuel : Nat),
      chainFrom h (some a) l = true → l.Nodup → l.length ≤ fuel →
      freeChainStep h a fuel = .ok (removeList h l, l, l.length - 1) := by
  induction l with
  | nil =>
    intro h a fuel hc _ _
    exact absurd rfl (chainFrom_ne_nil h a [] hc)
  | cons x t ih =>
    intro h a fuel hc hnd hfuel
    simp only [chainFrom, Bool.and_eq_true, beq_iff_eq, Option.some.injEq] at hc
    obtain ⟨rfl, hc⟩ := hc
    have hpos : 0 < fuel := lt_of_lt_of_le (by simp) hfuel
    obtain ⟨fuel, rfl⟩ : ∃ f, fuel = f + 1 := ⟨fuel - 1, by omega⟩
    obtain ⟨hanot, hndt⟩ := List.nodup_cons.mp hnd
    cases hha : h a with
    | none => simp [hha] at hc
    | some nd =>
      simp only [hha] at hc
      cases t with
      | nil =>
        have hnext : nd.next = none := by
          cases hn : nd.next with
          | none => rfl
          | some b => simp [hn, chainFrom] at hc
        simp [freeChainStep, hha, hnext, removeList_cons, removeList_nil]
      | cons b t2 =>
        have hnext : nd.next = some b := by
          cases hn : nd.next with
          | none => simp only [hn, chainFrom] at hc; exact absurd hc (by simp)
          | some c =>
            simp only [hn, chainFrom, Bool.and_eq_true, beq_iff_eq,
              Option.some.injEq] at hc
            rw [hc.1]
        have hc2 : chainFrom (hFree h a) (some b) (b :: t2) = true := by
          rw [chainFrom_congr h (hFree h a) (some b) (b :: t2)
            (fun x hx => hFree_apply_ne h a x (fun he => hanot (he ▸ hx)))]
          simp only [hnext] at hc
          exact hc
        have hrec := ih (hFree h a) b fuel hc2 hndt
          (by simp only [List.length_cons] at hfuel ⊢; omega)
        simp only [freeChainStep, hha, hnext, hrec, List.length_cons,
          Nat.add_sub_cancel, removeList_cons]

/-! ### Multi-chain lemmas -/

theorem chainsWF_congr (h h2 : Heap) (hs : List Nat) (ls : List (List Nat))
    (hagree : ∀ l ∈ ls, ∀ x ∈ l, h2 x = h x) :
    chainsWF h2 hs ls = chainsWF h hs ls := by
  induction hs generalizing ls with
  | nil => cases ls <;> rfl
  | cons a hs ih =>
    cases ls with
    | nil => rfl
    | cons l ls =>
      simp only [chainsWF,
        chainFrom_congr h h2 (some a) l (hagree l (List.mem_cons_self l ls)),
        ih ls (fun l2 hl2 => hagree l2 (List.mem_cons_of_mem l hl2))]

theorem disjointb_disjoint (l1 l2 : List Nat) (hd : disjointb l1 l2 = true) :
    List.Disjoint l1 l2 := by
  intro x hx1 hx2
  simp only [disjointb, List.all_eq_true, decide_eq_true_eq] at hd
  exact hd x hx1 hx2

theorem chainsWF_nodup (h : Heap) (hs : List Nat) (ls : List (List Nat))
    (hwf : chainsWF h hs ls = true) : ∀ l ∈ ls, l.Nodup := by
  induction hs generalizing ls with
  | nil =>
    cases ls with
    | nil => intro l hl; cases hl
    | cons l ls => simp [chainsWF] at hwf
  | cons a hs ih =>
    cases ls with
    | nil => intro l hl; cases hl
    | cons l ls =>
      simp only [chainsWF, Bool.and_eq_true, decide_eq_true_eq] at hwf
      intro l2 hl2
      rcases List.mem_cons.mp hl2 with rfl | hl2
      · exact hwf.1.2
      · exact ih ls hwf.2 l2 hl2

theorem pairwise_join_nodup (ls : List (List Nat)) (hnd : ∀ l ∈ ls, l.Nodup)
    (hdisj : pairwiseDisjointb ls = true) : ls.flatten.Nodup := by
  induction ls with
  | nil => simp
  | cons l ls ih =>
    simp only [pairwiseDisjointb, Bool.and_eq_true, List.all_eq_true] at hdisj
    rw [List.flatten_cons]
    refine List.Nodup.append (hnd l (List.mem_cons_self l ls))
      (ih (fun l2 hl2 => hnd l2 (List.mem_cons_of_mem l hl2)) hdisj.2) ?_
    intro x hx1 hx2
    obtain ⟨l2, hl2, hxl2⟩ := List.mem_flatten.mp hx2
    exact disjointb_disjoint l l2 (hdisj.1 l2 hl2) hx1 hxl2

/-- Running `free_cluster_list` on a well-formed collection of pairwise
disjoint chains succeeds and frees exactly the concatenation of the
chains, removing exactly those addresses from the heap. -/
theorem free_cluster_list_spec (hs : List Nat) :
    ∀ (h : Heap) (ls : List (List Nat)) (fuel : Nat),
      chainsWF h hs ls = true → pairwiseDisjointb ls = true →
      (∀ l ∈ ls, l.length ≤ fuel) →
      free_cluster_list (hs.map some) h fuel = .ok (removeList h ls.flatten, ls.flatten) := by
  induction hs with
  | nil =>
    intro h ls fuel hwf _ _
    cases ls with
    | nil => simp [free_cluster_list, removeList_nil]
    | cons l ls => simp [chainsWF] at hwf
  | cons a hs ih =>
    intro h ls fuel hwf hdisj hfuel
    cases ls with
    | nil => simp [chainsWF] at hwf
    | cons l ls =>
      simp only [chainsWF, Bool.and_eq_true, decide_eq_true_eq] at hwf
      obtain ⟨⟨hcf, hndl⟩, hwfr⟩ := hwf
      simp only [pairwiseDisjointb, Bool.and_eq_true, List.all_eq_true] at hdisj
      have hstep := freeChainStep_spec l h a fuel hcf hndl
        (hfuel l (List.mem_cons_self l ls))
      have hwfr2 : chainsWF (removeList h l) hs ls = true := by
        rw [chainsWF_congr h (removeList h l) hs ls
          (fun l2 hl2 x hx =>
            removeList_apply_not_mem h l x
              (fun hxl => disjointb_disjoint l l2 (hdisj.1 l2 hl2) hxl hx))]
        exact hwfr
      have hrec := ih (removeList h l) ls fuel hwfr2 hdisj.2
        (fun l2 hl2 => hfuel l2 (List.mem_cons_of_mem l hl2))
      simp only [List.map_cons, free_cluster_list, hstep, hrec, List.flatten_cons,
        removeList_append]

/-! ### Slot-array lemmas (`free_category_indices`, `free_distances`) -/

theorem free_category_indices_eq_filterMap (slots : List (Option Nat)) :
    free_category_indices slots = slots.filterMap id := by
  induction slots with
  | nil => rfl
  | cons s rest ih =>
    cases s <;> simp [free_category_indices, freeEffect, List.filterMap_cons, ih]

theorem free_distances_eq_filterMap (slots : List (Option Nat)) :
    free_distances slots = slots.filterMap id := by
  induction slots with
  | nil => rfl
  | cons s rest ih =>
    cases s <;> simp [free_distances, freeEffect, List.filterMap_cons, ih]

theorem count_filterMap_id (slots : List (Option Nat)) (a : Nat) :
    (slots.filterMap id).count a = slots.count (some a) := by
  induction slots with
  | nil => rfl
  | cons s rest ih =>
    cases s with
    | none => simp [ih, List.count_cons]
    | some b => simp [ih, List.count_cons]

/-! ### Point-array lemmas (`free_points`) -/

theorem free_points_eq_take (i : Nat) :
    ∀ (n : Nat) (POINTS : List Element), i ≤ POINTS.length →
      free_points n POINTS i
        = some (((POINTS.take i).map (fun p => freeEffect p.values)).flatten) := by
  induction i with
  | zero => intro n POINTS _; simp [free_points]
  | succ i ih =>
    intro n POINTS hlen
    cases POINTS with
    | nil => simp at hlen
    | cons p rest =>
      simp only [List.length_cons, Nat.succ_le_succ_iff] at hlen
      simp [free_points, ih n rest hlen, List.take_succ_cons]

theorem free_points_n_irrel (i : Nat) :
    ∀ (n n2 : Nat) (POINTS : List Element),
      free_points n POINTS i = free_points n2 POINTS i := by
  induction i with
  | zero => intro n n2 POINTS; cases POINTS <;> rfl
  | succ i ih =>
    intro n n2 POINTS
    cases POINTS with
    | nil => rfl
    | cons p rest => simp [free_points, ih n n2 rest]

theorem flatten_map_freeEffect (xs : List Element) :
    (xs.map (fun p => freeEffect p.values)).flatten = xs.filterMap Element.values := by
  induction xs with
  | nil => rfl
  | cons p rest ih =>
    rw [List.map_cons, List.flatten_cons, ih, List.filterMap_cons]
    cases p.values with
    | none => rfl
    | some b => rfl

theorem free_points_some_le (i : Nat) :
    ∀ (n : Nat) (POINTS : List Element) (l : List Nat),
      free_points n POINTS i = some l → i ≤ POINTS.length := by
  induction i with
  | zero => intro n POINTS l _; exact Nat.zero_le _
  | succ i ih =>
    intro n POINTS l hres
    cases POINTS with
    | nil => simp [free_points] at hres
    | cons p rest =>
      simp only [free_points] at hres
      cases hr : free_points n rest i with
      | none => rw [hr] at hres; cases hres
      | some l2 =>
        simp only [List.length_cons, Nat.succ_le_succ_iff]
        exact ih n rest l2 hr

/-! ### Claim theorems -/

/-- C1: for every `k ≥ 1` and every array of `k` cluster chains in which
chain `i` is a null-terminated acyclic (`Nodup`), uniquely-owned chain of
`m_i ≥ 1` nodes, `free_cluster_list` succeeds and releases exactly the
`Σ m_i` nodes of the chains — the release trace is the concatenation of
the chains, it has no duplicates (no double free), its length is `Σ m_i`,
and exactly those addresses are removed from the heap (no reachable node
is left unreleased). -/
theorem free_cluster_list_frees_each_node_once (h : Heap) (hs : List Nat)
    (ls : List (List Nat)) (fuel : Nat)
    (_hk : 1 ≤ hs.length)
    (hwf : chainsWF h hs ls = true)
    (hdisj : pairwiseDisjointb ls = true)
    (hfuel : ∀ l ∈ ls, l.length ≤ fuel) :
    free_cluster_list (hs.map some) h fuel = .ok (removeList h ls.flatten, ls.flatten)
      ∧ ls.flatten.Nodup
      ∧ ls.flatten.length = (ls.map List.length).sum :=
  ⟨free_cluster_list_spec hs h ls fuel hwf hdisj hfuel,
   pairwise_join_nodup ls (chainsWF_nodup h hs ls hwf) hdisj,
   List.length_flatten ls⟩

/-- Witness for C1: the spec scenario `k = 3`, chain lengths `[1, 2, 1]`,
four nodes freed in total. -/
theorem free_cluster_list_frees_each_node_once_witness :
    free_cluster_list ([10, 20, 40].map some) exampleHeap 2
      = .ok (removeList exampleHeap [10, 20, 30, 40], [10, 20, 30, 40]) :=
  (free_cluster_list_frees_each_node_once exampleHeap [10, 20, 40]
    [[10], [20, 30], [40]] 2 (by decide) (by decide) (by decide) (by decide)).1

/-- C2: for every `n ≥ 0`, points array of length `n` and
`0 ≤ validCount ≤ n`, `free_points` releases exactly the `values`
allocations of the points at indices `[0, validCount)` — one `free` call
per such index, in index order — and reads nothing from indices
`[validCount, n)`: any array agreeing on the first `validCount` entries
produces the same result. -/
theorem free_points_partial_release (n : Nat) (POINTS : List Element) (i : Nat)
    (hn : POINTS.length = n) (hi : i ≤ n) :
    free_points n POINTS i
        = some (((POINTS.take i).map (fun p => freeEffect p.values)).flatten)
      ∧ ∀ POINTS2 : List Element, POINTS2.take i = POINTS.take i →
          free_points n POINTS2 i = free_points n POINTS i := by
  have hlen : i ≤ POINTS.length := hn ▸ hi
  refine ⟨free_points_eq_take i n POINTS hlen, ?_⟩
  intro POINTS2 htake
  have hlen2 : i ≤ POINTS2.length := by
    have := congrArg List.length htake
    simp only [List.length_take] at this
    omega
  rw [free_points_eq_take i n POINTS hlen, free_points_eq_take i n POINTS2 hlen2,
    htake]

/-- Witness for C2: the spec scenario — 5 points, loader fails after
allocating 3; exactly the three `values` buffers are freed. -/
theorem free_points_partial_release_witness :
    free_points 5 [⟨some 100⟩, ⟨some 200⟩, ⟨some 300⟩, ⟨none⟩, ⟨none⟩] 3
      = some [100, 200, 300] :=
  (free_points_partial_release 5 [⟨some 100⟩, ⟨some 200⟩, ⟨some 300⟩, ⟨none⟩, ⟨none⟩] 3
    (by decide) (by decide)).1

/-- C3: for every slot array with an arbitrary mix of null and non-null
slots, `free_category_indices` and `free_distances` release exactly the
non-null slots (each occurrence once, nulls contributing no release and no
fault): the release trace is `filterMap id` of the slots, and each address
is released exactly as often as it occurs as a non-null slot. -/
theorem free_slots_release_nonnull_once (slots : List (Option Nat)) :
    free_category_indices slots = slots.filterMap id
      ∧ free_distances slots = slots.filterMap id
      ∧ (∀ a : Nat, (free_category_indices slots).count a = slots.count (some a))
      ∧ (∀ a : Nat, (free_distances slots).count a = slots.count (some a)) :=
  ⟨free_category_indices_eq_filterMap slots,
   free_distances_eq_filterMap slots,
   fun a => (free_category_indices_eq_filterMap slots).symm ▸ count_filterMap_id slots a,
   fun a => (free_distances_eq_filterMap slots).symm ▸ count_filterMap_id slots a⟩

/-- C4: a null head pointer makes `free_cluster_list` evaluate
`ptr->next` on a null `ptr` — the null-dereference error branch of the
embedding is reached on a concrete one-cluster array with a null head —
while under the precondition that every head is non-null (and heads chains
that are well formed and disjoint) the run returns `.ok`, so the error
branch is unreachable. -/
theorem free_cluster_list_null_head_ub :
    free_cluster_list [none] (fun _ => none) 1 = .error .nullDeref
      ∧ ∀ (h : Heap) (hs : List Nat) (ls : List (List Nat)) (fuel : Nat),
          chainsWF h hs ls = true → pairwiseDisjointb ls = true →
          (∀ l ∈ ls, l.length ≤ fuel) →
          (free_cluster_list (hs.map some) h fuel).isOk = true :=
  ⟨rfl,
   fun h hs ls fuel hwf hdisj hfuel => by
     rw [free_cluster_list_spec hs h ls fuel hwf hdisj hfuel]; rfl⟩

/-- Witness for C4: a non-null, well-formed single chain runs to `.ok`. -/
theorem free_cluster_list_null_head_ub_witness :
    (free_cluster_list ([10].map some) exampleHeap 1).isOk = true :=
  free_cluster_list_null_head_ub.2 exampleHeap [10] [[10]] 1
    (by decide) (by decide) (by decide)

/-- C5: on an acyclic null-terminated chain the traversal is strictly
forward, one node at a time — the release trace is exactly the chain's
node list in order — and since in this embedding `free` removes the node
from the heap and every `ptr->next` read of a freed address is the
`danglingRead` error, the `.ok` result shows each node is released only
after the traversal pointer has moved past it and is never read again. -/
theorem free_chain_use_after_advance (h : Heap) (a : Nat) (l : List Nat) (fuel : Nat)
    (hc : chainFrom h (some a) l = true) (hnd : l.Nodup) (hf : l.length ≤ fuel) :
    freeChainStep h a fuel = .ok (removeList h l, l, l.length - 1) :=
  freeChainStep_spec l h a fuel hc hnd hf

/-- Witness for C5: the two-node chain `20 → 30`. -/
theorem free_chain_use_after_advance_witness :
    freeChainStep exampleHeap 20 2
      = .ok (removeList exampleHeap [20, 30], [20, 30], 1) :=
  free_chain_use_after_advance exampleHeap 20 [20, 30] 2
    (by decide) (by decide) (by decide)

/-- C6: on an acyclic null-terminated chain of `m ≥ 1` nodes the inner
`while` loop runs exactly `m - 1` iterations (it exits when the current
node's successor is absent), the final node is freed after the loop exits
as the last entry of the trace, and the chain has exactly one more node
than the number of iterations. -/
theorem free_chain_loop_count (h : Heap) (a : Nat) (l : List Nat) (fuel : Nat)
    (hc : chainFrom h (some a) l = true) (hnd : l.Nodup) (hf : l.length ≤ fuel) :
    freeChainStep h a fuel = .ok (removeList h l, l, l.length - 1)
      ∧ l.length = (l.length - 1) + 1 := by
  refine ⟨freeChainStep_spec l h a fuel hc hnd hf, ?_⟩
  have hne := chainFrom_ne_nil h a l hc
  cases l with
  | nil => exact absurd rfl hne
  | cons x t => simp

/-- Witness for C6: the chain `20 → 30` has 2 nodes and the loop runs
exactly 1 iteration. -/
theorem free_chain_loop_count_witness :
    freeChainStep exampleHeap 20 2
        = .ok (removeList exampleHeap [20, 30], [20, 30], 2 - 1)
      ∧ (2 : Nat) = (2 - 1) + 1 :=
  free_chain_loop_count exampleHeap 20 [20, 30] 2 (by decide) (by decide) (by decide)

/-- C7: `free_points` never releases the points array itself: every
address in the release trace is the `values` allocation of one of the
points at an index below `validCount`; nothing else — in particular not
the aggregate array — is released. -/
theorem free_points_frees_only_values (n : Nat) (POINTS : List Element) (i : Nat)
    (l : List Nat) (hres : free_points n POINTS i = some l) :
    ∀ x ∈ l, x ∈ (POINTS.take i).filterMap Element.values := by
  have hlen := free_points_some_le i n POINTS l hres
  rw [free_points_eq_take i n POINTS hlen, flatten_map_freeEffect] at hres
  intro x hx
  exact (Option.some.injEq _ _ ▸ hres) ▸ hx

/-- Witness for C7: the single released address `7` is the `values`
pointer of point 0. -/
theorem free_points_frees_only_values_witness :
    (7 : Nat) ∈ (([⟨some 7⟩] : List Element).take 1).filterMap Element.values :=
  free_points_frees_only_values 1 [⟨some 7⟩] 1 [7] (by decide) 7 (by decide)

/-- C8: for `free_category_indices` and `free_distances` there is no
ordering dependency between slots: releasing the slots in any permuted
order releases the same multiset of allocations as releasing them in index
order. -/
theorem free_slots_order_independent (slots slots2 : List (Option Nat))
    (hperm : slots.Perm slots2) :
    (free_category_indices slots).Perm (free_category_indices slots2)
      ∧ (free_distances slots).Perm (free_distances slots2) := by
  rw [free_category_indices_eq_filterMap, free_category_indices_eq_filterMap,
    free_distances_eq_filterMap, free_distances_eq_filterMap]
  exact ⟨hperm.filterMap id, hperm.filterMap id⟩

/-- Witness for C8: a concrete reordering of `[null, 1, 2]` releases the
same allocations. -/
theorem free_slots_order_independent_witness :
    (free_category_indices [none, some 1, some 2]).Perm
        (free_category_indices [some 2, none, some 1])
      ∧ (free_distances [none, some 1, some 2]).Perm
        (free_distances [some 2, none, some 1]) :=
  free_slots_order_independent [none, some 1, some 2] [some 2, none, some 1]
    (by decide)

/-- C9: for `k = 0` the outer loop body never runs: `free_cluster_list`
returns successfully on every heap without reading any head pointer and
with an empty release trace, so the non-null-heads precondition is not
needed in this case. -/
theorem free_cluster_list_zero_clusters (h : Heap) (fuel : Nat) :
    free_cluster_list [] h fuel = .ok (h, []) :=
  rfl

/-- C10: `free_points` never uses its length parameter `n`: for any two
values of `n` the result (and hence the set of released allocations) is
identical, and in particular no `validCount ≤ n` bound is enforced — with
`n = 0` and `validCount = 1` the values buffer of point 0 is still
released. -/
theorem free_points_ignores_length_param :
    (∀ (n n2 i : Nat) (POINTS : List Element),
        free_points n POINTS i = free_points n2 POINTS i)
      ∧ free_points 0 [⟨some 5⟩] 1 = some [5] :=
  ⟨fun n n2 i POINTS => free_points_n_irrel i n n2 POINTS, by decide⟩

end FreeMemory
